import Mathlib

/-!
Verification development for the orbuculum trace daemon
(src/Src/orbuculum.c and src/Src/oflow.c).

Bytes are modelled as natural numbers; byte arithmetic that wraps in the
C source (uint8_t sums) is modelled with explicit `% 256`.  Characters of
the TPIU channel-list string are modelled as their ASCII codes.
-/

namespace Orbuculum

/-- Modelled from the spec: `COBS_SYNC_CHAR` comes from cobs.h, which is not
under src/.  The spec fixes the COBS delimiter `SYNC` to 0x00. -/
def COBS_SYNC_CHAR : Nat := 0

/-- Modelled from the spec: `TRANSFER_SIZE` comes from an external header.
The spec gives the fixed DataBlock capacity as "TRANSFER_SIZE, a compile-time
constant, e.g. 4 KiB". -/
def TRANSFER_SIZE : Nat := 4096

/-- From src/Src/orbuculum.c: `#define NUM_RAW_BLOCKS (10)`. -/
def NUM_RAW_BLOCKS : Nat := 10

/-- From src/Src/orbuculum.c: `#define NUM_TPIU_CHANNELS 0x80`. -/
def NUM_TPIU_CHANNELS : Nat := 128

/-! ## COBS codec

Modelled from the spec: cobs.c is not under src/ (oflow.c only includes
cobs.h).  Spec §4.1/§6: consistent-overhead byte stuffing with zero
delimiter, at most 254 data bytes between overhead bytes, frames
terminated by a single 0x00; the encoded frame contains no 0x00 inside.
The encoder and decoder carry an explicit fuel argument (always called
with ample fuel) so that they are structurally recursive and reduce
inside the kernel. -/

/-- The leading group of a COBS chunk: the longest run of non-zero bytes,
capped at 254. -/
def cobsGroup (l : List Nat) : List Nat :=
  (l.takeWhile fun b => b != 0).take 254

/-- Fuel-indexed COBS encoder body.  A chunk of 254 non-zero bytes is coded
`255 :: group` (no implicit zero); a shorter chunk is coded
`(len+1) :: group`, consuming one zero byte of the input when one follows. -/
def cobsEncodeF : Nat → List Nat → List Nat
  | 0, _ => []
  | fuel + 1, l =>
    if (cobsGroup l).length = 254 then
      255 :: (cobsGroup l ++ cobsEncodeF fuel (l.drop 254))
    else if l.length ≤ (cobsGroup l).length then
      ((cobsGroup l).length + 1) :: cobsGroup l
    else
      ((cobsGroup l).length + 1) ::
        (cobsGroup l ++ cobsEncodeF fuel (l.drop ((cobsGroup l).length + 1)))

/-- COBS encoding of a byte sequence (without the terminating SYNC). -/
def cobsEncode (l : List Nat) : List Nat := cobsEncodeF (l.length + 1) l

/-- Reassembly of one decoded group: copy `c-1` bytes and append the implicit
zero when the code byte `c` is below 255 and more encoded data follows. -/
def cobsDecodeStep (c : Nat) (rest : List Nat) (tail : Option (List Nat)) :
    Option (List Nat) :=
  match tail with
  | none => none
  | some d =>
    some (rest.take (c - 1) ++
      (if c < 255 ∧ rest.drop (c - 1) ≠ [] then [0] else []) ++ d)

/-- Fuel-indexed COBS decoder body: read a code byte `c`, copy `c-1` bytes,
recurse on the remainder. -/
def cobsDecodeF : Nat → List Nat → Option (List Nat)
  | _, [] => some []
  | 0, _ :: _ => none
  | fuel + 1, c :: rest =>
    if c = 0 then none
    else if rest.length < c - 1 then none
    else cobsDecodeStep c rest (cobsDecodeF fuel (rest.drop (c - 1)))

/-- COBS decoding of a delimiter-free byte sequence. -/
def cobsDecode (l : List Nat) : Option (List Nat) := cobsDecodeF l.length l

/-! ### Basic facts about the COBS group -/

theorem takeWhile_eq_take_length (p : Nat → Bool) :
    ∀ l : List Nat, l.takeWhile p = l.take (l.takeWhile p).length := by
  intro l
  induction l with
  | nil => rfl
  | cons a t ih =>
    by_cases h : p a
    · simp only [List.takeWhile_cons_of_pos h, List.length_cons, List.take_succ_cons]
      exact congrArg (a :: ·) ih
    · simp [List.takeWhile_cons_of_neg h]

theorem takeWhile_take_eq_take (p : Nat → Bool) :
    ∀ (l : List Nat) (n : Nat), n ≤ (l.takeWhile p).length →
      (l.takeWhile p).take n = l.take n := by
  intro l
  induction l with
  | nil => intro n _; simp
  | cons a t ih =>
    intro n hn
    by_cases h : p a
    · rw [List.takeWhile_cons_of_pos h] at hn ⊢
      cases n with
      | zero => simp
      | succ m =>
        simp only [List.take_succ_cons]
        exact congrArg (a :: ·) (ih m (by simpa using hn))
    · rw [List.takeWhile_cons_of_neg h] at hn
      simp at hn
      simp [hn]

theorem cobsGroup_length_le (l : List Nat) : (cobsGroup l).length ≤ l.length := by
  unfold cobsGroup
  calc ((l.takeWhile fun b => b != 0).take 254).length
      ≤ (l.takeWhile fun b => b != 0).length := List.length_take_le' _ _
    _ ≤ l.length := (List.takeWhile_sublist _).length_le

theorem cobsGroup_le_254 (l : List Nat) : (cobsGroup l).length ≤ 254 :=
  List.length_take_le _ _

theorem cobsGroup_mem_ne_zero {l : List Nat} {b : Nat} (h : b ∈ cobsGroup l) :
    b ≠ 0 := by
  unfold cobsGroup at h
  have h3 := List.mem_takeWhile_imp (List.mem_of_mem_take h)
  simpa using h3

/-- When the group is full (254 bytes) it is exactly the first 254 bytes of
the input. -/
theorem cobsGroup_eq_take (l : List Nat) (h : (cobsGroup l).length = 254) :
    cobsGroup l = l.take 254 := by
  have h2 : 254 ≤ (l.takeWhile fun b => b != 0).length := by
    unfold cobsGroup at h
    rw [List.length_take] at h
    omega
  unfold cobsGroup
  exact takeWhile_take_eq_take _ l 254 h2

/-- When the group is not full it is the whole non-zero run. -/
theorem cobsGroup_eq_takeWhile (l : List Nat) (h : (cobsGroup l).length ≠ 254) :
    cobsGroup l = l.takeWhile fun b => b != 0 := by
  have h2 : (l.takeWhile fun b => b != 0).length < 254 := by
    by_contra h3
    apply h
    unfold cobsGroup
    rw [List.length_take]
    omega
  unfold cobsGroup
  exact List.take_of_length_le (by omega)

/-- When the group covers the whole input, the input is the group. -/
theorem cobsGroup_full_eq (l : List Nat) (h : l.length ≤ (cobsGroup l).length) :
    cobsGroup l = l := by
  have hg : (cobsGroup l).length = min 254 (l.takeWhile fun b => b != 0).length := by
    unfold cobsGroup
    exact List.length_take _ _
  have htwle : (l.takeWhile fun b => b != 0).length ≤ l.length :=
    (List.takeWhile_sublist _).length_le
  have h1 : (l.takeWhile fun b => b != 0).length = l.length := by omega
  have h2 : (l.takeWhile fun b => b != 0) = l := by
    have h3 := takeWhile_eq_take_length (fun b => b != 0) l
    rw [h1, List.take_length] at h3
    exact h3
  unfold cobsGroup
  rw [h2]
  exact List.take_of_length_le (by omega)

theorem drop_takeWhile_length (p : Nat → Bool) :
    ∀ l : List Nat, l.drop (l.takeWhile p).length = l.dropWhile p := by
  intro l
  induction l with
  | nil => rfl
  | cons a t ih =>
    by_cases h : p a
    · simpa [List.takeWhile_cons_of_pos h, List.dropWhile_cons_of_pos h] using ih
    · simp [List.takeWhile_cons_of_neg h, List.dropWhile_cons_of_neg h]

theorem dropWhile_cons_head (p : Nat → Bool) :
    ∀ (l : List Nat) (b : Nat) (t : List Nat),
      l.dropWhile p = b :: t → p b = false := by
  intro l
  induction l with
  | nil => intro b t h; simp at h
  | cons a r ih =>
    intro b t h
    by_cases hp : p a
    · rw [List.dropWhile_cons_of_pos hp] at h
      exact ih b t h
    · rw [List.dropWhile_cons_of_neg hp] at h
      cases h
      simpa using hp

/-! ### Fuel irrelevance and one-step unfolding -/

theorem cobsEncodeF_fuel_eq :
    ∀ (f : Nat), ∀ (g : Nat) (l : List Nat), l.length < f → l.length < g →
      cobsEncodeF f l = cobsEncodeF g l := by
  intro f
  induction f with
  | zero => intro g l h _; exact absurd h (Nat.not_lt_zero _)
  | succ f ih =>
    intro g l hf hg
    cases g with
    | zero => exact absurd hg (Nat.not_lt_zero _)
    | succ g =>
      show cobsEncodeF (f + 1) l = cobsEncodeF (g + 1) l
      rw [cobsEncodeF, cobsEncodeF]
      have hgl := cobsGroup_length_le l
      by_cases h254 : (cobsGroup l).length = 254
      · rw [if_pos h254, if_pos h254]
        have hd : (l.drop 254).length = l.length - 254 := List.length_drop _ _
        rw [ih g (l.drop 254) (by omega) (by omega)]
      · rw [if_neg h254, if_neg h254]
        by_cases hfull : l.length ≤ (cobsGroup l).length
        · rw [if_pos hfull, if_pos hfull]
        · rw [if_neg hfull, if_neg hfull]
          have hd : (l.drop ((cobsGroup l).length + 1)).length =
              l.length - ((cobsGroup l).length + 1) := List.length_drop _ _
          rw [ih g (l.drop ((cobsGroup l).length + 1)) (by omega) (by omega)]

theorem cobsEncode_eq (l : List Nat) :
    cobsEncode l =
      if (cobsGroup l).length = 254 then
        255 :: (cobsGroup l ++ cobsEncode (l.drop 254))
      else if l.length ≤ (cobsGroup l).length then
        ((cobsGroup l).length + 1) :: cobsGroup l
      else
        ((cobsGroup l).length + 1) ::
          (cobsGroup l ++ cobsEncode (l.drop ((cobsGroup l).length + 1))) := by
  unfold cobsEncode
  rw [cobsEncodeF]
  have hgl := cobsGroup_length_le l
  by_cases h254 : (cobsGroup l).length = 254
  · rw [if_pos h254, if_pos h254]
    have hd : (l.drop 254).length = l.length - 254 := List.length_drop _ _
    rw [cobsEncodeF_fuel_eq l.length ((l.drop 254).length + 1) (l.drop 254)
      (by omega) (by omega)]
  · rw [if_neg h254, if_neg h254]
    by_cases hfull : l.length ≤ (cobsGroup l).length
    · rw [if_pos hfull, if_pos hfull]
    · rw [if_neg hfull, if_neg hfull]
      have hd : (l.drop ((cobsGroup l).length + 1)).length =
          l.length - ((cobsGroup l).length + 1) := List.length_drop _ _
      rw [cobsEncodeF_fuel_eq l.length
        ((l.drop ((cobsGroup l).length + 1)).length + 1)
        (l.drop ((cobsGroup l).length + 1)) (by omega) (by omega)]

theorem cobsDecodeF_fuel_eq :
    ∀ (f : Nat), ∀ (g : Nat) (l : List Nat), l.length ≤ f → l.length ≤ g →
      cobsDecodeF f l = cobsDecodeF g l := by
  intro f
  induction f with
  | zero =>
    intro g l hf _
    have : l = [] := List.length_eq_zero.mp (by omega)
    subst this
    cases g <;> rfl
  | succ f ih =>
    intro g l hf hg
    cases l with
    | nil => cases g <;> rfl
    | cons c rest =>
      cases g with
      | zero => simp at hg
      | succ g =>
        show cobsDecodeF (f + 1) (c :: rest) = cobsDecodeF (g + 1) (c :: rest)
        rw [cobsDecodeF, cobsDecodeF]
        have hd : (rest.drop (c - 1)).length = rest.length - (c - 1) :=
          List.length_drop _ _
        have hlen : rest.length + 1 = (c :: rest).length := rfl
        rw [ih g (rest.drop (c - 1)) (by simp at hf ⊢; omega)
          (by simp at hg ⊢; omega)]

theorem cobsDecode_nil : cobsDecode [] = some [] := rfl

theorem cobsDecode_cons (c : Nat) (rest : List Nat) :
    cobsDecode (c :: rest) =
      if c = 0 then none
      else if rest.length < c - 1 then none
      else cobsDecodeStep c rest (cobsDecode (rest.drop (c - 1))) := by
  unfold cobsDecode
  show cobsDecodeF (rest.length + 1) (c :: rest) = _
  rw [cobsDecodeF]
  have hd : (rest.drop (c - 1)).length = rest.length - (c - 1) :=
    List.length_drop _ _
  rw [cobsDecodeF_fuel_eq rest.length (rest.drop (c - 1)).length
    (rest.drop (c - 1)) (by omega) (by omega)]

theorem cobsEncodeF_ne_nil (f : Nat) (l : List Nat) (h : 0 < f) :
    cobsEncodeF f l ≠ [] := by
  cases f with
  | zero => omega
  | succ f =>
    rw [cobsEncodeF]
    split_ifs <;> simp

theorem cobsEncode_ne_nil (l : List Nat) : cobsEncode l ≠ [] :=
  cobsEncodeF_ne_nil _ l (Nat.succ_pos _)

theorem cobsEncodeF_mem_ne_zero :
    ∀ (f : Nat) (l : List Nat) (b : Nat), b ∈ cobsEncodeF f l → b ≠ 0 := by
  intro f
  induction f with
  | zero => intro l b h; simp [cobsEncodeF] at h
  | succ f ih =>
    intro l b h
    rw [cobsEncodeF] at h
    split_ifs at h with h1 h2
    · rcases List.mem_cons.mp h with h | h
      · omega
      · rcases List.mem_append.mp h with h | h
        · exact cobsGroup_mem_ne_zero h
        · exact ih _ b h
    · rcases List.mem_cons.mp h with h | h
      · omega
      · exact cobsGroup_mem_ne_zero h
    · rcases List.mem_cons.mp h with h | h
      · omega
      · rcases List.mem_append.mp h with h | h
        · exact cobsGroup_mem_ne_zero h
        · exact ih _ b h

theorem cobsEncode_mem_ne_zero {l : List Nat} {b : Nat}
    (h : b ∈ cobsEncode l) : b ≠ 0 :=
  cobsEncodeF_mem_ne_zero _ l b h

/-! ### Round trip: decoding an encoded chunk restores it -/

theorem cobs_roundtrip_F :
    ∀ (fuel : Nat) (l : List Nat), l.length < fuel →
      cobsDecode (cobsEncodeF fuel l) = some l := by
  intro fuel
  induction fuel with
  | zero => intro l h; exact absurd h (Nat.not_lt_zero _)
  | succ f ih =>
    intro l hl
    have hgl := cobsGroup_length_le l
    rw [cobsEncodeF]
    by_cases h254 : (cobsGroup l).length = 254
    · rw [if_pos h254]
      rw [cobsDecode_cons]
      have hlen : (cobsGroup l ++ cobsEncodeF f (l.drop 254)).length ≥ 254 := by
        rw [List.length_append, h254]
        omega
      rw [if_neg (by omega), if_neg (by omega)]
      have htake : (cobsGroup l ++ cobsEncodeF f (l.drop 254)).take (255 - 1) =
          cobsGroup l := List.take_left' (by omega)
      have hdrop : (cobsGroup l ++ cobsEncodeF f (l.drop 254)).drop (255 - 1) =
          cobsEncodeF f (l.drop 254) := List.drop_left' (by omega)
      rw [hdrop]
      have hd : (l.drop 254).length = l.length - 254 := List.length_drop _ _
      rw [ih (l.drop 254) (by omega)]
      simp only [cobsDecodeStep]
      rw [htake, if_neg (fun hx => absurd hx.1 (by omega))]
      rw [cobsGroup_eq_take l h254]
      simp [List.take_append_drop]
    · rw [if_neg h254]
      by_cases hfull : l.length ≤ (cobsGroup l).length
      · rw [if_pos hfull]
        have hG : cobsGroup l = l := cobsGroup_full_eq l hfull
        rw [hG, cobsDecode_cons]
        rw [if_neg (by omega), if_neg (by omega)]
        have ht : l.length + 1 - 1 = l.length := by omega
        rw [ht, List.drop_length, cobsDecode_nil]
        simp only [cobsDecodeStep]
        rw [ht, List.take_length, List.drop_length]
        simp
      · rw [if_neg hfull]
        have hG : cobsGroup l = l.takeWhile fun b => b != 0 :=
          cobsGroup_eq_takeWhile l h254
        -- decompose l = group ++ 0 :: t
        have hdw : l.drop (cobsGroup l).length = l.dropWhile fun b => b != 0 := by
          rw [hG]
          exact drop_takeWhile_length _ l
        have hdwne : l.drop (cobsGroup l).length ≠ [] := by
          intro hc
          have := congrArg List.length hc
          rw [List.length_drop] at this
          simp at this
          omega
        obtain ⟨b, t, hbt⟩ : ∃ b t, l.drop (cobsGroup l).length = b :: t := by
          cases hx : l.drop (cobsGroup l).length with
          | nil => exact absurd hx hdwne
          | cons b t => exact ⟨b, t, rfl⟩
        have hb0 : b = 0 := by
          have hfalse := dropWhile_cons_head (fun x => x != 0) l b t (by rw [← hdw, hbt])
          simpa using hfalse
        have ht : t = l.drop ((cobsGroup l).length + 1) := by
          have h1 : (l.drop (cobsGroup l).length).drop 1 =
              l.drop ((cobsGroup l).length + 1) := by
            rw [List.drop_drop]
          rw [hbt] at h1
          simpa using h1
        have hsplit : l = cobsGroup l ++ 0 :: t := by
          have h2 := List.take_append_drop (cobsGroup l).length l
          have h3 : l.take (cobsGroup l).length = cobsGroup l := by
            rw [hG]
            exact (takeWhile_eq_take_length (fun b => b != 0) l).symm
          rw [h3, hbt, hb0] at h2
          exact h2.symm
        rw [cobsDecode_cons]
        rw [if_neg (by omega)]
        have hle : (cobsGroup l ++ cobsEncodeF f (l.drop ((cobsGroup l).length + 1))).length
            ≥ (cobsGroup l).length := by
          rw [List.length_append]
          omega
        rw [if_neg (by omega)]
        have hc1 : (cobsGroup l).length + 1 - 1 = (cobsGroup l).length := by omega
        have htake : (cobsGroup l ++
            cobsEncodeF f (l.drop ((cobsGroup l).length + 1))).take
              ((cobsGroup l).length + 1 - 1) = cobsGroup l := by
          rw [hc1]
          exact List.take_left _ _
        have hdrop : (cobsGroup l ++
            cobsEncodeF f (l.drop ((cobsGroup l).length + 1))).drop
              ((cobsGroup l).length + 1 - 1) =
            cobsEncodeF f (l.drop ((cobsGroup l).length + 1)) := by
          rw [hc1]
          exact List.drop_left _ _
        rw [hdrop]
        have hd : (l.drop ((cobsGroup l).length + 1)).length =
            l.length - ((cobsGroup l).length + 1) := List.length_drop _ _
        rw [ih (l.drop ((cobsGroup l).length + 1)) (by omega)]
        simp only [cobsDecodeStep]
        have h255 : (cobsGroup l).length + 1 < 255 := by
          have := cobsGroup_le_254 l
          omega
        rw [htake, hdrop, if_pos ⟨h255, cobsEncodeF_ne_nil f _ (by omega)⟩]
        rw [← ht]
        conv_rhs => rw [hsplit]
        simp

theorem cobs_roundtrip (l : List Nat) :
    cobsDecode (cobsEncode l) = some l :=
  cobs_roundtrip_F (l.length + 1) l (Nat.lt_succ_self _)

/-! ## ORBFLOW codec (src/Src/oflow.c) -/

/-- Wrapping 8-bit sum as computed by the `uint8_t` accumulators of
oflow.c: start from `init`, add each byte, all modulo 256. -/
def sum8 (init : Nat) (l : List Nat) : Nat :=
  l.foldl (fun a b => (a + b) % 256) (init % 256)

/-- An ORBFLOW frame as delivered by `_pumpcb` (the `struct OFLOWFrame`
fields `len`, `tag`, `sum`, `d`, `good`; the timestamp field is filled from
the wall clock by `OFLOWPump` and is not modelled). -/
structure OFLOWFrameM where
  len : Nat
  tag : Nat
  sum : Nat
  d : List Nat
  good : Bool
deriving DecidableEq

/-- ORBFLOW decoder state: the contained COBS accumulation buffer `c`, the
error counter `perror`, the delivered-frame fields `f`, and the list of
frames handed to the caller's packet callback so far. -/
structure OFLOWState where
  c : List Nat
  perror : Nat
  f : OFLOWFrameM
  outputs : List OFLOWFrameM
deriving DecidableEq

/-- Freshly initialised ORBFLOW instance (`OFLOWInit` / `COBSInit` zero it). -/
def OFLOWInitState : OFLOWState := ⟨[], 0, ⟨0, 0, 0, [], false⟩, []⟩

/-- Model of `_pumpcb` (src/Src/oflow.c lines 81-113): callback for each
complete COBS frame `p`.  Short frames (`len < 2`) only bump `perror`;
otherwise the tag, checksum byte and payload are extracted, the wrapping
sum over tag, payload and checksum byte decides `good`, `perror` is bumped
on a bad sum, and the frame is delivered to the caller's packet callback
(modelled by appending it to `outputs`). -/
def pumpcb (t : OFLOWState) (p : List Nat) : OFLOWState :=
  if p.length < 2 then
    { t with perror := t.perror + 1 }
  else
    let len := p.length - 2
    let tag := p.headD 0
    let sm := p.getLastD 0
    let d := (p.drop 1).take len
    let s := (sum8 tag d + sm) % 256
    let fr : OFLOWFrameM := ⟨len, tag, sm, d, s == 0⟩
    { t with
      f := fr
      perror := t.perror + (if s == 0 then 0 else 1)
      outputs := t.outputs ++ [fr] }

/-- Modelled from the spec: one byte of cobs.c's `COBSPump` (cobs.c is not
under src/).  Non-SYNC bytes are accumulated; a SYNC byte completes the
pending chunk, which is decoded and, when non-empty, well-formed and within
the reassembly capacity `cap`, handed to `_pumpcb`; empty frames are not
emitted and over-capacity or malformed chunks are dropped with a resync. -/
def COBSPumpByte (cap : Nat) (t : OFLOWState) (b : Nat) : OFLOWState :=
  if b = COBS_SYNC_CHAR then
    if t.c = [] then t
    else
      match cobsDecode t.c with
      | some d =>
        if d.length ≤ cap then pumpcb { t with c := [] } d
        else { t with c := [] }
      | none => { t with c := [] }
  else { t with c := t.c ++ [b] }

/-- Model of `OFLOWPump` (src/Src/oflow.c lines 115-129): feed the incoming
bytes to the contained COBS pump with `_pumpcb` as completion callback. -/
def OFLOWPump (cap : Nat) (t : OFLOWState) (incoming : List Nat) : OFLOWState :=
  incoming.foldl (COBSPumpByte cap) t

/-- The checksum byte `backMatter[0] = 256 - sum` chosen by `OFLOWEncode`
(as a `uint8_t`, i.e. modulo 256) so that the whole frame sums to 0. -/
def OFLOWchecksum (channel : Nat) (msg : List Nat) : Nat :=
  (256 - sum8 channel msg) % 256

/-- Model of `OFLOWEncode` (src/Src/oflow.c lines 52-70): front matter is
the channel byte, back matter the checksum byte; the C code never reads
`tstamp`.  Per spec §4.1 the COBS encoder produces a byte sequence whose
decode is front, body, back, terminated by a single SYNC. -/
def OFLOWEncode (channel tstamp : Nat) (msg : List Nat) : List Nat :=
  cobsEncode ([channel] ++ msg ++ [OFLOWchecksum channel msg]) ++ [COBS_SYNC_CHAR]

/-- Model of `OFLOWisEOFRAME` (src/Src/oflow.c lines 74-78). -/
def OFLOWisEOFRAME (b : Nat) : Bool := COBS_SYNC_CHAR == b

/-- Model of `OFLOWgetFrameExtent` (src/Src/oflow.c lines 133-145) applied
to the `len` bytes starting at the input pointer (the list argument),
returning the offset of the returned pointer: scan while the current byte
is not an end-of-frame marker and `--len` stays non-zero. -/
def OFLOWgetFrameExtent : List Nat → Nat
  | [] => 0
  | b :: rest =>
    if OFLOWisEOFRAME b then 0
    else if rest.isEmpty then 0
    else 1 + OFLOWgetFrameExtent rest

/-! ### Lemmas about the ORBFLOW codec -/

theorem sum8_cons (init b : Nat) (bs : List Nat) :
    sum8 init (b :: bs) = sum8 (init % 256 + b) bs := rfl

theorem sum8_lt (init : Nat) (l : List Nat) : sum8 init l < 256 := by
  induction l generalizing init with
  | nil => exact Nat.mod_lt _ (by omega)
  | cons b bs ih =>
    rw [sum8_cons]
    exact ih _

theorem sum8_checksum_zero (ch : Nat) (p : List Nat) :
    (sum8 ch p + OFLOWchecksum ch p) % 256 = 0 := by
  have h := sum8_lt ch p
  unfold OFLOWchecksum
  omega

theorem COBSPumpByte_nonzero (cap : Nat) (t : OFLOWState) (b : Nat)
    (h : b ≠ 0) : COBSPumpByte cap t b = { t with c := t.c ++ [b] } := by
  unfold COBSPumpByte
  rw [if_neg (by simpa [COBS_SYNC_CHAR] using h)]

theorem OFLOWPump_accumulate (cap : Nat) (t : OFLOWState) (bytes : List Nat)
    (h : ∀ b ∈ bytes, b ≠ 0) :
    OFLOWPump cap t bytes = { t with c := t.c ++ bytes } := by
  induction bytes generalizing t with
  | nil => simp [OFLOWPump]
  | cons b bs ih =>
    unfold OFLOWPump at *
    simp only [List.foldl_cons]
    rw [COBSPumpByte_nonzero cap t b (h b (List.mem_cons_self _ _))]
    rw [ih _ (fun x hx => h x (List.mem_cons_of_mem _ hx))]
    simp

theorem OFLOWPump_encode_emits (cap : Nat) (t : OFLOWState) (D : List Nat)
    (hc : t.c = []) (hcap : D.length ≤ cap) :
    OFLOWPump cap t (cobsEncode D ++ [COBS_SYNC_CHAR]) =
      pumpcb { t with c := [] } D := by
  unfold OFLOWPump
  rw [List.foldl_append]
  have hacc : List.foldl (COBSPumpByte cap) t (cobsEncode D) =
      { t with c := t.c ++ cobsEncode D } :=
    OFLOWPump_accumulate cap t (cobsEncode D) (fun b hb => cobsEncode_mem_ne_zero hb)
  rw [hacc, hc]
  simp only [List.nil_append, List.foldl_cons, List.foldl_nil]
  unfold COBSPumpByte
  rw [if_pos rfl]
  simp only []
  rw [if_neg (cobsEncode_ne_nil D)]
  rw [cobs_roundtrip D]
  simp only []
  rw [if_pos hcap]

theorem pumpcb_frame (t : OFLOWState) (tag : Nat) (payload : List Nat) (sm : Nat) :
    pumpcb t ([tag] ++ payload ++ [sm]) =
      { t with
        f := ⟨payload.length, tag, sm, payload,
          ((sum8 tag payload + sm) % 256) == 0⟩
        perror := t.perror +
          (if ((sum8 tag payload + sm) % 256) == 0 then 0 else 1)
        outputs := t.outputs ++ [⟨payload.length, tag, sm, payload,
          ((sum8 tag payload + sm) % 256) == 0⟩] } := by
  have hlen : ([tag] ++ payload ++ [sm]).length = payload.length + 2 := by
    simp only [List.length_append, List.length_cons, List.length_nil]
    omega
  have h1 : ([tag] ++ payload ++ [sm]).headD 0 = tag := rfl
  have h2 : ([tag] ++ payload ++ [sm]).getLastD 0 = sm := by
    show (tag :: (payload ++ [sm])).getLastD 0 = sm
    rw [List.getLastD_cons]
    exact List.getLastD_concat _ _ _
  have hd : List.drop 1 ([tag] ++ payload ++ [sm]) = payload ++ [sm] := rfl
  unfold pumpcb
  rw [if_neg (by omega)]
  simp only [hlen, h1, h2, hd, Nat.add_sub_cancel, List.take_left]

theorem OFLOWgetFrameExtent_cons (b : Nat) (rest : List Nat) :
    OFLOWgetFrameExtent (b :: rest) =
      if OFLOWisEOFRAME b then 0
      else if rest.isEmpty then 0
      else 1 + OFLOWgetFrameExtent rest := rfl

/-! ## Claim theorems about the ORBFLOW codec -/

/-- C4: for every channel `ch`, timestamp and payload `p` that fits within
the frame capacity `cap`, pumping the exact byte sequence produced by
`OFLOWEncode ch tstamp p` through the ORBFLOW decoder invokes the packet
callback exactly once, with a frame whose tag equals `ch`, whose payload
bytes equal `p` and whose good flag is true (and no error is counted). -/
theorem OFLOWEncode_pump_roundtrip (cap ch tstamp : Nat) (p : List Nat)
    (hch : ch < 256) (hp : ∀ b ∈ p, b < 256) (hcap : p.length + 2 ≤ cap) :
    (OFLOWPump cap OFLOWInitState (OFLOWEncode ch tstamp p)).outputs =
      [⟨p.length, ch, OFLOWchecksum ch p, p, true⟩] ∧
    (OFLOWPump cap OFLOWInitState (OFLOWEncode ch tstamp p)).perror = 0 := by
  unfold OFLOWEncode
  rw [OFLOWPump_encode_emits cap OFLOWInitState
    ([ch] ++ p ++ [OFLOWchecksum ch p]) rfl
    (by simp only [List.length_append, List.length_cons, List.length_nil]; omega)]
  rw [pumpcb_frame]
  have hz : ((sum8 ch p + OFLOWchecksum ch p) % 256 == 0) = true := by
    simpa using sum8_checksum_zero ch p
  constructor <;> simp [OFLOWInitState, hz]

/-- Witness for C4: channel 3, payload [104, 105], capacity 16. -/
theorem OFLOWEncode_pump_roundtrip_witness :
    (OFLOWPump 16 OFLOWInitState (OFLOWEncode 3 0 [104, 105])).outputs =
      [⟨2, 3, OFLOWchecksum 3 [104, 105], [104, 105], true⟩] ∧
    (OFLOWPump 16 OFLOWInitState (OFLOWEncode 3 0 [104, 105])).perror = 0 :=
  OFLOWEncode_pump_roundtrip 16 3 0 [104, 105] (by decide) (by decide) (by decide)

/-- C3 counterexample: the bytes [4, 1, 2, 3, 0] form one complete COBS
frame decoding to [1, 2, 3] (tag 1, payload [2], checksum byte 3, length 3
≥ 2) whose 8-bit wrapping sum is 6 ≠ 0.  The decoder increments `perror`
but still invokes the caller's packet callback for this frame (with
`good = false`), so the frame is not dropped as the claim states. -/
theorem oflow_badsum_callback_invoked :
    (OFLOWPump 16 OFLOWInitState [4, 1, 2, 3, 0]).outputs.length = 1 ∧
    ((OFLOWPump 16 OFLOWInitState [4, 1, 2, 3, 0]).outputs.headD
      ⟨0, 0, 0, [], false⟩).good = false ∧
    (OFLOWPump 16 OFLOWInitState [4, 1, 2, 3, 0]).perror = 1 := by
  decide

/-- C3 (amended): for every COBS frame of length ≥ 2 whose 8-bit wrapping
sum over tag, payload bytes and checksum byte is non-zero, the decoder
increments its error counter and still delivers the frame to the caller's
packet callback, flagged `good = false`, and continues decoding. -/
theorem pumpcb_badsum_flags_and_delivers (t : OFLOWState) (p : List Nat)
    (h2 : 2 ≤ p.length)
    (hs : (sum8 (p.headD 0) ((p.drop 1).take (p.length - 2)) + p.getLastD 0)
      % 256 ≠ 0) :
    (pumpcb t p).perror = t.perror + 1 ∧
    (pumpcb t p).outputs = t.outputs ++ [(pumpcb t p).f] ∧
    (pumpcb t p).f.good = false := by
  have hb : ((sum8 (p.headD 0) ((p.drop 1).take (p.length - 2)) + p.getLastD 0)
      % 256 == 0) = false := by
    simpa using hs
  have key : pumpcb t p = ⟨t.c, t.perror + 1,
      ⟨p.length - 2, p.headD 0, p.getLastD 0,
        (p.drop 1).take (p.length - 2), false⟩,
      t.outputs ++ [⟨p.length - 2, p.headD 0, p.getLastD 0,
        (p.drop 1).take (p.length - 2), false⟩]⟩ := by
    unfold pumpcb
    rw [if_neg (by omega)]
    simp only [hb]
    simp
  rw [key]
  exact ⟨rfl, rfl, rfl⟩

/-- Witness for C3's amended theorem at the frame [1, 2, 3]. -/
theorem pumpcb_badsum_flags_and_delivers_witness :
    (pumpcb OFLOWInitState [1, 2, 3]).perror = OFLOWInitState.perror + 1 ∧
    (pumpcb OFLOWInitState [1, 2, 3]).outputs =
      OFLOWInitState.outputs ++ [(pumpcb OFLOWInitState [1, 2, 3]).f] ∧
    (pumpcb OFLOWInitState [1, 2, 3]).f.good = false :=
  pumpcb_badsum_flags_and_delivers OFLOWInitState [1, 2, 3]
    (by decide) (by decide)

/-- C7: every COBS frame of decoded length strictly below 2 handed to
`_pumpcb` increments the error counter and is silently dropped: the packet
callback is not invoked and the delivered-frame fields are untouched (the
resulting state differs from the input state only in `perror`). -/
theorem pumpcb_short_frame (t : OFLOWState) (p : List Nat)
    (h : p.length < 2) :
    pumpcb t p = { t with perror := t.perror + 1 } := by
  unfold pumpcb
  rw [if_pos h]

/-- Witness for C7 at the one-byte frame [7]. -/
theorem pumpcb_short_frame_witness :
    pumpcb OFLOWInitState [7] =
      { OFLOWInitState with perror := OFLOWInitState.perror + 1 } :=
  pumpcb_short_frame OFLOWInitState [7] (by decide)

/-- C10: for every non-empty byte buffer, `OFLOWgetFrameExtent` returns
the offset of the first byte equal to the COBS SYNC delimiter when one
exists, and the offset of the last byte otherwise.  The list argument
models the `len ≥ 1` bytes at the input pointer; for `len ≤ 0` the C scan
is not bounded by `len` and has no list model. -/
theorem OFLOWgetFrameExtent_spec (l : List Nat) (hne : l ≠ []) :
    (0 ∈ l → OFLOWgetFrameExtent l = l.findIdx fun b => b == 0) ∧
    (0 ∉ l → OFLOWgetFrameExtent l = l.length - 1) := by
  induction l with
  | nil => exact absurd rfl hne
  | cons b rest ih =>
    by_cases hb : b = 0
    · subst hb
      refine ⟨fun _ => ?_, fun h0 => absurd (List.mem_cons_self _ _) h0⟩
      rw [OFLOWgetFrameExtent_cons,
        if_pos (by simp [OFLOWisEOFRAME, COBS_SYNC_CHAR]), List.findIdx_cons]
      simp
    · have hbeq : OFLOWisEOFRAME b = false := by
        simp only [OFLOWisEOFRAME, COBS_SYNC_CHAR]
        simpa using fun h => hb h.symm
      cases rest with
      | nil =>
        refine ⟨fun h0 => ?_, fun _ => ?_⟩
        · simp at h0
          exact absurd h0.symm hb
        · rw [OFLOWgetFrameExtent_cons, hbeq]
          simp
      | cons c rs =>
        have ihr := ih (by simp)
        refine ⟨fun h0 => ?_, fun h0 => ?_⟩
        · have h0r : 0 ∈ c :: rs := by
            rcases List.mem_cons.mp h0 with h | h
            · exact absurd h.symm hb
            · exact h
          rw [OFLOWgetFrameExtent_cons, hbeq]
          simp only [Bool.false_eq_true, if_false, List.isEmpty_cons, ite_false]
          rw [List.findIdx_cons]
          have hbf : (b == 0) = false := by simpa using hb
          rw [hbf]
          simp only [cond_false]
          rw [ihr.1 h0r]
          omega
        · have h0r : 0 ∉ c :: rs := fun hm => h0 (List.mem_cons_of_mem _ hm)
          rw [OFLOWgetFrameExtent_cons, hbeq]
          simp only [Bool.false_eq_true, if_false, List.isEmpty_cons, ite_false]
          rw [ihr.2 h0r]
          simp only [List.length_cons]
          omega

/-- Witness for C10: a buffer with a SYNC at offset 1 and one without. -/
theorem OFLOWgetFrameExtent_spec_witness :
    OFLOWgetFrameExtent [5, 0, 7] = List.findIdx (fun b => b == 0) [5, 0, 7] ∧
    OFLOWgetFrameExtent [5, 6, 7] = [5, 6, 7].length - 1 :=
  ⟨(OFLOWgetFrameExtent_spec [5, 0, 7] (by decide)).1 (by decide),
   (OFLOWgetFrameExtent_spec [5, 6, 7] (by decide)).2 (by decide)⟩

/-! ## Distribution core (src/Src/orbuculum.c) -/

/-- Model of the `_purgeBlock` loop (src/Src/orbuculum.c lines 595-615)
over the per-handler fill levels: `i` is the countdown initialised to
`numHandlers`, `j` the offset of the roving handler pointer `h` from
`r->handler`.  Exactly as in the source, the pointer advance `h++` sits
inside the `if (fillLevel)` block.  Returns the final fill levels and the
list of `(handler index, byte count)` pairs passed to `nwclientSend`, in
send order. -/
def purgeGo : Nat → Nat → List Nat → List (Nat × Nat) →
    List Nat × List (Nat × Nat)
  | 0, _, fills, sends => (fills, sends.reverse)
  | i + 1, j, fills, sends =>
    if fills.getD j 0 ≠ 0 then
      purgeGo i (j + 1) (fills.set j 0) ((j, fills.getD j 0) :: sends)
    else
      purgeGo i j fills sends

/-- Model of `_purgeBlock` with TPIU enabled, on the handler fill levels. -/
def purgeBlock (fills : List Nat) : List Nat × List (Nat × Nat) :=
  purgeGo fills.length 0 fills []

/-- Accumulator while `_stripTPIU` walks the decoded TPIU tuples of one raw
block: the per-handler fill levels, a flag recording whether some append
happened at an index at or beyond TRANSFER_SIZE (out of bounds of the
handler's `dataBlock` buffer), and the one-slot channel cache
(`cachedChannel`, `chIndex`). -/
structure StripAcc where
  fills : List Nat
  overflow : Bool
  cached : Int
  chIndex : Nat
deriving DecidableEq

/-- Model of the per-tuple body of `_stripTPIU` (src/Src/orbuculum.c lines
641-667): when the stream id differs from the cached channel, refresh the
cache with a linear search over the handler channels; then, when a handler
matched (`chIndex != numHandlers`), append the data byte at the handler's
current fill level, post-incrementing it.  The source performs this append
with no bound check; the model records an overflow whenever the append
index reaches TRANSFER_SIZE. -/
def stripTuple (channels : List Nat) (a : StripAcc) (tu : Nat × Nat) :
    StripAcc :=
  let a1 : StripAcc :=
    if a.cached ≠ (tu.1 : Int) then
      ⟨a.fills, a.overflow, (tu.1 : Int),
        channels.findIdx fun ch => ch == tu.1⟩
    else a
  if a1.chIndex ≠ channels.length then
    ⟨a1.fills.set a1.chIndex (a1.fills.getD a1.chIndex 0 + 1),
      a1.overflow || decide (TRANSFER_SIZE ≤ a1.fills.getD a1.chIndex 0),
      a1.cached, a1.chIndex⟩
  else a1

/-- Model of one `_stripTPIU` call (src/Src/orbuculum.c lines 617-684) on
one raw block, represented by the list of TPIU packets the TPIU pump
completes inside the block (each packet a list of decoded (stream id, data
byte) tuples, at most 15 per 16-byte TPIU frame).  The channel cache
(`cachedChannel = -1`, `chIndex = 0`) is reset at the start of each call. -/
def stripBlock (channels : List Nat) (st : List Nat × Bool)
    (packets : List (List (Nat × Nat))) : List Nat × Bool :=
  let a := packets.foldl (fun acc pkt => pkt.foldl (stripTuple channels) acc)
    ⟨st.1, st.2, -1, 0⟩
  (a.fills, a.overflow)

/-- One iteration of the TPIU branch of `_processBlocks`
(src/Src/orbuculum.c lines 724-729): `_stripTPIU` then `_purgeBlock`. -/
def processTPIUBlock (channels : List Nat) (st : List Nat × Bool)
    (packets : List (List (Nat × Nat))) : List Nat × Bool :=
  let s2 := stripBlock channels st packets
  ((purgeBlock s2.1).1, s2.2)

/-- The distribution loop over a sequence of input blocks (TPIU path). -/
def processTPIUBlocks (channels : List Nat) (st : List Nat × Bool)
    (blocks : List (List (List (Nat × Nat)))) : List Nat × Bool :=
  blocks.foldl (processTPIUBlock channels) st

/-- A full TRANSFER_SIZE = 4096-byte raw block of TPIU frames: 256
sixteen-byte frames, each decoding to 15 data bytes for stream 2. -/
def c2Block : List (List (Nat × Nat)) :=
  List.replicate 256 (List.replicate 15 (2, 0))

/-- C1 is a code bug: with two handlers whose accumulation fill levels are
[0, 5] when an input block has been fully consumed, the `_purgeBlock` loop
sends nothing and leaves handler 1's fill level at 5.  Because `h++` sits
inside `if (fillLevel)`, the empty handler 0 is re-examined on every
iteration while the countdown `i` runs out, so the non-empty handler 1 is
neither flushed nor reset — the claim expects its buffer sent exactly once
and its fill level reset to 0, whatever the other fill levels are. -/
theorem purgeBlock_stalls_on_empty_handler :
    purgeBlock [0, 5] = ([0, 5], []) := by decide

/-- C2 is a code bug: the append in `_stripTPIU` (line 665) has no bound
check and there is no mid-block flush.  With handlers for channels [1, 2]
and two consecutive full 4096-byte blocks carrying stream-2 data only
(256 TPIU packets of 15 tuples each, i.e. 3840 decoded bytes per block),
handler 1 stays empty, so after the first block `_purgeBlock` stalls on it
(the C1 bug) and handler 2 keeps its 3840 bytes; during the second block
the append index reaches TRANSFER_SIZE = 4096, writing out of the
`dataBlock` buffer's bounds instead of flushing as the claim requires. -/
theorem stripTuple_hit (m : Nat) (ov : Bool) :
    stripTuple [1, 2] ⟨[0, m], ov, 2, 1⟩ (2, 0) =
      ⟨[0, m + 1], ov || decide (TRANSFER_SIZE ≤ m), 2, 1⟩ := rfl

theorem stripTuple_miss (m : Nat) (ov : Bool) :
    stripTuple [1, 2] ⟨[0, m], ov, -1, 0⟩ (2, 0) =
      ⟨[0, m + 1], ov || decide (TRANSFER_SIZE ≤ m), 2, 1⟩ := rfl

theorem stripRun_below (k : Nat) :
    ∀ (m : Nat) (ov : Bool), m + k ≤ TRANSFER_SIZE →
      List.foldl (stripTuple [1, 2]) ⟨[0, m], ov, 2, 1⟩
        (List.replicate k ((2 : Nat), (0 : Nat))) = ⟨[0, m + k], ov, 2, 1⟩ := by
  induction k with
  | zero => intro m ov _; simp
  | succ k ih =>
    intro m ov h
    rw [List.replicate_succ, List.foldl_cons, stripTuple_hit]
    rw [decide_eq_false (by simp only [TRANSFER_SIZE] at *; omega), Bool.or_false]
    rw [ih (m + 1) ov (by omega)]
    have he : m + 1 + k = m + (k + 1) := by omega
    rw [he]

theorem stripRun_true (k : Nat) :
    ∀ m : Nat, List.foldl (stripTuple [1, 2]) ⟨[0, m], true, 2, 1⟩
      (List.replicate k ((2 : Nat), (0 : Nat))) = ⟨[0, m + k], true, 2, 1⟩ := by
  induction k with
  | zero => intro m; simp
  | succ k ih =>
    intro m
    rw [List.replicate_succ, List.foldl_cons, stripTuple_hit, Bool.true_or]
    rw [ih (m + 1)]
    have he : m + 1 + k = m + (k + 1) := by omega
    rw [he]

theorem stripRun_over (k : Nat) :
    ∀ (m : Nat) (ov : Bool), 1 ≤ k → TRANSFER_SIZE < m + k →
      List.foldl (stripTuple [1, 2]) ⟨[0, m], ov, 2, 1⟩
        (List.replicate k ((2 : Nat), (0 : Nat))) = ⟨[0, m + k], true, 2, 1⟩ := by
  induction k with
  | zero => intro m ov h _; omega
  | succ k ih =>
    intro m ov _ hover
    rw [List.replicate_succ, List.foldl_cons, stripTuple_hit]
    by_cases hm : TRANSFER_SIZE ≤ m
    · rw [decide_eq_true hm, Bool.or_true, stripRun_true]
      have he : m + 1 + k = m + (k + 1) := by omega
      rw [he]
    · rw [decide_eq_false hm, Bool.or_false]
      have hk : 1 ≤ k := by simp only [TRANSFER_SIZE] at *; omega
      rw [ih (m + 1) ov hk (by simp only [TRANSFER_SIZE] at *; omega)]
      have he : m + 1 + k = m + (k + 1) := by omega
      rw [he]

theorem stripPkts_below (N : Nat) :
    ∀ (m : Nat) (ov : Bool), m + 15 * N ≤ TRANSFER_SIZE →
      List.foldl (fun acc pkt => List.foldl (stripTuple [1, 2]) acc pkt)
        ⟨[0, m], ov, 2, 1⟩
        (List.replicate N (List.replicate 15 ((2 : Nat), (0 : Nat)))) =
      ⟨[0, m + 15 * N], ov, 2, 1⟩ := by
  induction N with
  | zero => intro m ov _; simp
  | succ N ih =>
    intro m ov h
    rw [List.replicate_succ, List.foldl_cons]
    rw [stripRun_below 15 m ov (by simp only [TRANSFER_SIZE] at *; omega)]
    rw [ih (m + 15) ov (by simp only [TRANSFER_SIZE] at *; omega)]
    have he : m + 15 + 15 * N = m + 15 * (N + 1) := by omega
    rw [he]

theorem stripPkts_true (N : Nat) :
    ∀ m : Nat,
      List.foldl (fun acc pkt => List.foldl (stripTuple [1, 2]) acc pkt)
        ⟨[0, m], true, 2, 1⟩
        (List.replicate N (List.replicate 15 ((2 : Nat), (0 : Nat)))) =
      ⟨[0, m + 15 * N], true, 2, 1⟩ := by
  induction N with
  | zero => intro m; simp
  | succ N ih =>
    intro m
    rw [List.replicate_succ, List.foldl_cons, stripRun_true, ih (m + 15)]
    have he : m + 15 + 15 * N = m + 15 * (N + 1) := by omega
    rw [he]

theorem stripPkts_over (N : Nat) :
    ∀ (m : Nat) (ov : Bool), 1 ≤ N → TRANSFER_SIZE < m + 15 * N →
      List.foldl (fun acc pkt => List.foldl (stripTuple [1, 2]) acc pkt)
        ⟨[0, m], ov, 2, 1⟩
        (List.replicate N (List.replicate 15 ((2 : Nat), (0 : Nat)))) =
      ⟨[0, m + 15 * N], true, 2, 1⟩ := by
  induction N with
  | zero => intro m ov h _; omega
  | succ N ih =>
    intro m ov _ hover
    rw [List.replicate_succ, List.foldl_cons]
    by_cases hm : TRANSFER_SIZE < m + 15
    · rw [stripRun_over 15 m ov (by omega) hm, stripPkts_true]
      have he : m + 15 + 15 * N = m + 15 * (N + 1) := by omega
      rw [he]
    · rw [stripRun_below 15 m ov (by omega)]
      have hN : 1 ≤ N := by simp only [TRANSFER_SIZE] at *; omega
      rw [ih (m + 15) ov hN (by simp only [TRANSFER_SIZE] at *; omega)]
      have he : m + 15 + 15 * N = m + 15 * (N + 1) := by omega
      rw [he]

theorem stripPkt_fresh (m : Nat) (ov : Bool) (h : m + 15 ≤ TRANSFER_SIZE) :
    List.foldl (stripTuple [1, 2]) ⟨[0, m], ov, -1, 0⟩
      (List.replicate 15 ((2 : Nat), (0 : Nat))) = ⟨[0, m + 15], ov, 2, 1⟩ := by
  have e2 : List.replicate 15 ((2 : Nat), (0 : Nat)) =
      ((2 : Nat), (0 : Nat)) :: List.replicate 14 ((2 : Nat), (0 : Nat)) := rfl
  rw [e2, List.foldl_cons, stripTuple_miss]
  rw [decide_eq_false (by simp only [TRANSFER_SIZE] at *; omega), Bool.or_false]
  rw [stripRun_below 14 (m + 1) ov (by omega)]

theorem stripBlock_c2_below (m : Nat) (ov : Bool)
    (h : m + 3840 ≤ TRANSFER_SIZE) :
    stripBlock [1, 2] ([0, m], ov) c2Block = ([0, m + 3840], ov) := by
  simp only [stripBlock, c2Block]
  have e1 : List.replicate 256 (List.replicate 15 ((2 : Nat), (0 : Nat))) =
      List.replicate 15 ((2 : Nat), (0 : Nat)) ::
        List.replicate 255 (List.replicate 15 ((2 : Nat), (0 : Nat))) := rfl
  rw [e1, List.foldl_cons]
  rw [stripPkt_fresh m ov (by simp only [TRANSFER_SIZE] at *; omega)]
  rw [stripPkts_below 255 (m + 15) ov (by simp only [TRANSFER_SIZE] at *; omega)]

theorem stripBlock_c2_over (m : Nat) (ov : Bool)
    (hlow : m + 15 ≤ TRANSFER_SIZE) (h : TRANSFER_SIZE < m + 3840) :
    stripBlock [1, 2] ([0, m], ov) c2Block = ([0, m + 3840], true) := by
  simp only [stripBlock, c2Block]
  have e1 : List.replicate 256 (List.replicate 15 ((2 : Nat), (0 : Nat))) =
      List.replicate 15 ((2 : Nat), (0 : Nat)) ::
        List.replicate 255 (List.replicate 15 ((2 : Nat), (0 : Nat))) := rfl
  rw [e1, List.foldl_cons]
  rw [stripPkt_fresh m ov hlow]
  rw [stripPkts_over 255 (m + 15) ov (by omega)
    (by simp only [TRANSFER_SIZE] at *; omega)]

theorem purgeBlock_stall (m : Nat) : purgeBlock [0, m] = ([0, m], []) := rfl

/-- C2 is a code bug: the append in `_stripTPIU` (line 665) has no bound
check and there is no mid-block flush.  With handlers for channels [1, 2]
and two consecutive full 4096-byte blocks carrying stream-2 data only
(256 TPIU packets of 15 tuples each, i.e. 3840 decoded bytes per block),
handler 1 stays empty, so after the first block `_purgeBlock` stalls on it
(the C1 bug) and handler 2 keeps its 3840 bytes; during the second block
the append index reaches TRANSFER_SIZE = 4096, writing out of the
`dataBlock` buffer's bounds instead of flushing as the claim requires. -/
theorem stripTPIU_append_reaches_transfer_size :
    (processTPIUBlocks [1, 2] ([0, 0], false) [c2Block, c2Block]).2 = true := by
  have h1 : processTPIUBlock [1, 2] ([0, 0], false) c2Block =
      ([0, 3840], false) := by
    simp only [processTPIUBlock]
    rw [stripBlock_c2_below 0 false (by simp only [TRANSFER_SIZE]; omega)]
    simp only [Nat.zero_add]
    rw [purgeBlock_stall]
  have h2 : processTPIUBlock [1, 2] ([0, 3840], false) c2Block =
      ((purgeBlock [0, 3840 + 3840]).1, true) := by
    simp only [processTPIUBlock]
    rw [stripBlock_c2_over 3840 false (by simp only [TRANSFER_SIZE]; omega)
      (by simp only [TRANSFER_SIZE]; omega)]
  show (processTPIUBlock [1, 2] (processTPIUBlock [1, 2] ([0, 0], false)
    c2Block) c2Block).2 = true
  rw [h1, h2]

/-! ## Ring indices (src/Src/orbuculum.c) -/

/-- The daemon's ring indices (the uint8_t fields `wp` and `rp` of
`struct RunTime`), zero-initialised. -/
structure RingIndices where
  wp : Nat
  rp : Nat
deriving DecidableEq

/-- One scheduler step of the daemon as far as the ring indices are
concerned: each ingest driver advances `wp` by `(wp + 1) % NUM_RAW_BLOCKS`
(usbFeeder line 872, seggerFeeder line 939, serialFeeder line 1005,
fileFeeder line 1123) and the distribution loop advances `rp` by
`(rp + 1) % NUM_RAW_BLOCKS` (line 737). -/
inductive RingStep : RingIndices → RingIndices → Prop
  | usbAdvance (w r : Nat) : RingStep ⟨w, r⟩ ⟨(w + 1) % NUM_RAW_BLOCKS, r⟩
  | seggerAdvance (w r : Nat) : RingStep ⟨w, r⟩ ⟨(w + 1) % NUM_RAW_BLOCKS, r⟩
  | serialAdvance (w r : Nat) : RingStep ⟨w, r⟩ ⟨(w + 1) % NUM_RAW_BLOCKS, r⟩
  | fileAdvance (w r : Nat) : RingStep ⟨w, r⟩ ⟨(w + 1) % NUM_RAW_BLOCKS, r⟩
  | rpAdvance (w r : Nat) : RingStep ⟨w, r⟩ ⟨w, (r + 1) % NUM_RAW_BLOCKS⟩

/-- States of the `(wp, rp)` pair reachable from the zero-initialised
globals by any interleaving of driver and distributor steps. -/
def RingReachable (s : RingIndices) : Prop :=
  Relation.ReflTransGen RingStep ⟨0, 0⟩ s

/-- C8: in every reachable state of the daemon both ring indices are in
0..NUM_RAW_BLOCKS-1 (strictly below 10): every advance of `wp` by any
ingest driver and every advance of `rp` by the distribution loop computes
the successor modulo NUM_RAW_BLOCKS, so the invariant is preserved by
every step. -/
theorem ring_indices_in_range (s : RingIndices) (h : RingReachable s) :
    s.wp < NUM_RAW_BLOCKS ∧ s.rp < NUM_RAW_BLOCKS := by
  induction h with
  | refl => exact ⟨by decide, by decide⟩
  | tail _ hstep ih =>
    cases hstep with
    | usbAdvance w r => exact ⟨Nat.mod_lt _ (by decide), ih.2⟩
    | seggerAdvance w r => exact ⟨Nat.mod_lt _ (by decide), ih.2⟩
    | serialAdvance w r => exact ⟨Nat.mod_lt _ (by decide), ih.2⟩
    | fileAdvance w r => exact ⟨Nat.mod_lt _ (by decide), ih.2⟩
    | rpAdvance w r => exact ⟨ih.1, Nat.mod_lt _ (by decide)⟩

/-- Witness for C8: the initial state is reachable and in range. -/
theorem ring_indices_in_range_witness :
    (⟨0, 0⟩ : RingIndices).wp < NUM_RAW_BLOCKS ∧
    (⟨0, 0⟩ : RingIndices).rp < NUM_RAW_BLOCKS :=
  ring_indices_in_range ⟨0, 0⟩ Relation.ReflTransGen.refl

/-! ## File ingest driver (src/Src/orbuculum.c) -/

/-- What one iteration of the fileFeeder read loop does, as observed by the
ring and the consumer. -/
inductive FileFeederAction where
  /-- `break`: leave the read loop (fileTerminate set). -/
  | terminate : FileFeederAction
  /-- `usleep(100000); continue`: sleep 100 ms and retry; `wp` unchanged. -/
  | sleepRetry : FileFeederAction
  /-- advance `wp` to the given new value, handing the consumer a block
  with the given fill level. -/
  | handToConsumer : Int → Nat → FileFeederAction
deriving DecidableEq

/-- Model of one iteration of the fileFeeder read loop (src/Src/orbuculum.c
lines 1104-1124): `n` is the `ssize_t` value returned by `read` and stored
into `rxBlock->fillLevel`; the driver special-cases only
`!rxBlock->fillLevel`, i.e. `n = 0`. -/
def fileFeederStep (fileTerminate : Bool) (wp : Nat) (n : Int) :
    FileFeederAction :=
  if n = 0 then
    if fileTerminate then .terminate else .sleepRetry
  else
    .handToConsumer n ((wp + 1) % NUM_RAW_BLOCKS)

/-- C5 is a code bug: a failed read (`read()` returning -1) is not treated
as "no data" by the file driver, which tests only `!rxBlock->fillLevel`.
With either value of fileTerminate, a read error advances `wp` and hands
the consumer a block whose fill level is -1 (which `_processBlocks` then
uses as a byte count), instead of never handing a block as the claim and
spec state. -/
theorem fileFeeder_error_read_hands_block :
    fileFeederStep true 0 (-1) = .handToConsumer (-1) 1 ∧
    fileFeederStep false 0 (-1) = .handToConsumer (-1) 1 := by
  decide

/-! ## Startup channel-list scan (src/Src/orbuculum.c, main)

The `-t` argument is a C string; its characters are modelled by their
ASCII codes. -/

/-- ASCII model of ctype `isdigit`. -/
def isdigitA (c : Nat) : Bool := 48 ≤ c && c ≤ 57

/-- ASCII code of the channel-list delimiter, `#define DELIMITER ','`. -/
def DELIMITER : Nat := 44

/-- Fuel-indexed model of the TPIU channel-list loop of `main`
(src/Src/orbuculum.c lines 1172-1212).  One outer `while (*c)` iteration
skips delimiters, accumulates decimal digits into `x`, exits with code -1
on any other character (`genericsExit`), and for non-zero `x` range-checks
it against NUM_TPIU_CHANNELS and records `(x, listenPort + numHandlers)` —
the port on which the new handler's `nwclientStart` listens.  The fuel only
pads the structural recursion and is always called ample. -/
def chanLoopF (lp : Nat) : Nat → List Nat → Nat → List (Nat × Nat) →
    Except Int (List (Nat × Nat))
  | 0, _, _, acc => .ok acc
  | _ + 1, [], _, acc => .ok acc
  | fuel + 1, c :: cs, x, acc =>
    let rest := (c :: cs).dropWhile fun ch => ch == DELIMITER
    let ds := rest.takeWhile isdigitA
    let x2 := ds.foldl (fun a d => a * 10 + (d - 48)) x
    let rest2 := rest.drop ds.length
    if rest2 ≠ [] ∧ rest2.headD DELIMITER ≠ DELIMITER then .error (-1)
    else if x2 ≠ 0 then
      if NUM_TPIU_CHANNELS ≤ x2 then .error (-1)
      else chanLoopF lp fuel rest2 0 (acc ++ [(x2, lp + acc.length)])
    else chanLoopF lp fuel rest2 x2 acc

/-- The startup channel-list scan on the full `-t` argument string. -/
def chanLoop (lp : Nat) (cs : List Nat) : Except Int (List (Nat × Nat)) :=
  chanLoopF lp (cs.length + 1) cs 0 []

/-- Decimal rendering of a channel number as ASCII digit codes
(fuel-indexed, always called with ample fuel). -/
def renderNatF : Nat → Nat → List Nat
  | 0, _ => []
  | fuel + 1, n =>
    if n < 10 then [48 + n]
    else renderNatF fuel (n / 10) ++ [48 + n % 10]

/-- Decimal ASCII rendering of a channel number. -/
def renderNat (n : Nat) : List Nat := renderNatF (n + 1) n

/-- ASCII rendering of a channel list as the comma-separated decimal
string passed to `-t`. -/
def renderChannelList : List Nat → List Nat
  | [] => []
  | [n] => renderNat n
  | n :: rest => renderNat n ++ DELIMITER :: renderChannelList rest

/-- Ports assigned by the startup loop: the k-th accepted channel listens
on `base + k`. -/
def assignPorts (base : Nat) : List Nat → List (Nat × Nat)
  | [] => []
  | c :: rest => (c, base) :: assignPorts (base + 1) rest

/-! ### Properties of the decimal rendering -/

theorem renderNatF_fuel_eq :
    ∀ (f : Nat), ∀ (g n : Nat), n < f → n < g →
      renderNatF f n = renderNatF g n := by
  intro f
  induction f with
  | zero => intro g n h _; exact absurd h (Nat.not_lt_zero _)
  | succ f ih =>
    intro g n hf hg
    cases g with
    | zero => exact absurd hg (Nat.not_lt_zero _)
    | succ g =>
      show renderNatF (f + 1) n = renderNatF (g + 1) n
      rw [renderNatF, renderNatF]
      by_cases h : n < 10
      · rw [if_pos h, if_pos h]
      · rw [if_neg h, if_neg h]
        have hd : n / 10 < n := Nat.div_lt_self (by omega) (by omega)
        rw [ih g (n / 10) (by omega) (by omega)]

theorem renderNat_eq (n : Nat) :
    renderNat n =
      if n < 10 then [48 + n]
      else renderNat (n / 10) ++ [48 + n % 10] := by
  unfold renderNat
  rw [renderNatF]
  by_cases h : n < 10
  · rw [if_pos h, if_pos h]
  · rw [if_neg h, if_neg h]
    have hd : n / 10 < n := Nat.div_lt_self (by omega) (by omega)
    rw [renderNatF_fuel_eq n (n / 10 + 1) (n / 10) (by omega) (by omega)]

theorem renderNat_digits (n : Nat) :
    ∀ c ∈ renderNat n, 48 ≤ c ∧ c ≤ 57 := by
  induction n using Nat.strong_induction_on with
  | _ n ih =>
    rw [renderNat_eq]
    by_cases h : n < 10
    · rw [if_pos h]
      intro c hc
      simp at hc
      omega
    · rw [if_neg h]
      intro c hc
      rcases List.mem_append.mp hc with hc | hc
      · exact ih (n / 10) (Nat.div_lt_self (by omega) (by omega)) c hc
      · have hm : n % 10 < 10 := Nat.mod_lt _ (by omega)
        simp at hc
        omega

theorem renderNat_ne_nil (n : Nat) : renderNat n ≠ [] := by
  rw [renderNat_eq]
  split_ifs <;> simp

theorem renderNat_foldl (n : Nat) :
    ∀ x : Nat, (renderNat n).foldl (fun a d => a * 10 + (d - 48)) x =
      x * 10 ^ (renderNat n).length + n := by
  induction n using Nat.strong_induction_on with
  | _ n ih =>
    intro x
    rw [renderNat_eq]
    by_cases h : n < 10
    · rw [if_pos h]
      show x * 10 + (48 + n - 48) = x * 10 ^ 1 + n
      have he : 48 + n - 48 = n := by omega
      rw [he, pow_one]
    · rw [if_neg h]
      rw [List.foldl_append]
      rw [ih (n / 10) (Nat.div_lt_self (by omega) (by omega)) x]
      show (x * 10 ^ (renderNat (n / 10)).length + n / 10) * 10 +
          (48 + n % 10 - 48) =
        x * 10 ^ (renderNat (n / 10) ++ [48 + n % 10]).length + n
      have he : 48 + n % 10 - 48 = n % 10 := by omega
      rw [he, List.length_append, List.length_cons, List.length_nil]
      rw [pow_succ]
      have hdm : 10 * (n / 10) + n % 10 = n := Nat.div_add_mod n 10
      calc (x * 10 ^ (renderNat (n / 10)).length + n / 10) * 10 + n % 10
          = x * (10 ^ (renderNat (n / 10)).length * 10) +
            (10 * (n / 10) + n % 10) := by ring
        _ = x * (10 ^ (renderNat (n / 10)).length * 10) + n := by rw [hdm]

/-! ### Evaluating the scan on rendered channel lists -/

theorem chanLoopF_nil (lp : Nat) :
    ∀ (fuel x : Nat) (acc : List (Nat × Nat)),
      chanLoopF lp fuel [] x acc = .ok acc := by
  intro fuel
  cases fuel <;> intro x acc <;> rfl

theorem chanLoopF_succ (lp fuel : Nat) (input : List Nat) (x : Nat)
    (acc : List (Nat × Nat)) (h : input ≠ []) :
    chanLoopF lp (fuel + 1) input x acc =
      (let rest := input.dropWhile fun ch => ch == DELIMITER
       let ds := rest.takeWhile isdigitA
       let x2 := ds.foldl (fun a d => a * 10 + (d - 48)) x
       let rest2 := rest.drop ds.length
       if rest2 ≠ [] ∧ rest2.headD DELIMITER ≠ DELIMITER then .error (-1)
       else if x2 ≠ 0 then
         if NUM_TPIU_CHANNELS ≤ x2 then .error (-1)
         else chanLoopF lp fuel rest2 0 (acc ++ [(x2, lp + acc.length)])
       else chanLoopF lp fuel rest2 x2 acc) := by
  cases input with
  | nil => exact absurd rfl h
  | cons c cs => rfl

/-- One outer iteration of the scan on a delimiter-padded rendered number
followed by a tail that is empty or starts with a delimiter. -/
theorem chanLoopF_render_step (lp fuel k n : Nat) (t : List Nat)
    (acc : List (Nat × Nat))
    (ht : t = [] ∨ ∃ t2, t = DELIMITER :: t2) :
    chanLoopF lp (fuel + 1)
      (List.replicate k DELIMITER ++ (renderNat n ++ t)) 0 acc =
      if n ≠ 0 then
        if NUM_TPIU_CHANNELS ≤ n then .error (-1)
        else chanLoopF lp fuel t 0 (acc ++ [(n, lp + acc.length)])
      else chanLoopF lp fuel t 0 acc := by
  obtain ⟨d0, dtl, hd⟩ : ∃ d0 dtl, renderNat n = d0 :: dtl := by
    cases hrn : renderNat n with
    | nil => exact absurd hrn (renderNat_ne_nil n)
    | cons a b => exact ⟨a, b, rfl⟩
  have hdig := renderNat_digits n
  have hd0 : 48 ≤ d0 ∧ d0 ≤ 57 :=
    hdig d0 (by rw [hd]; exact List.mem_cons_self _ _)
  have hne : List.replicate k DELIMITER ++ (renderNat n ++ t) ≠ [] := by
    rw [hd]
    cases k <;> simp
  have hdrop : (List.replicate k DELIMITER ++ (renderNat n ++ t)).dropWhile
      (fun ch => ch == DELIMITER) = renderNat n ++ t := by
    rw [List.dropWhile_append_of_pos
      (by intro a ha; rw [List.eq_of_mem_replicate ha]; exact beq_self_eq_true _)]
    rw [hd, List.cons_append, List.dropWhile_cons_of_neg (by
      simp only [DELIMITER, beq_iff_eq]
      omega)]
  have hall : ∀ a ∈ renderNat n, isdigitA a = true := by
    intro a ha
    have h2 := hdig a ha
    simp only [isdigitA, Bool.and_eq_true, decide_eq_true_eq]
    omega
  have htake : (renderNat n ++ t).takeWhile isdigitA = renderNat n := by
    rw [List.takeWhile_append_of_pos hall]
    rcases ht with h | ⟨t2, h⟩
    · subst h; simp
    · subst h
      rw [List.takeWhile_cons_of_neg (by decide)]
      simp
  have hcond : ¬(t ≠ [] ∧ t.headD DELIMITER ≠ DELIMITER) := by
    rcases ht with h | ⟨t2, h⟩
    · subst h; exact fun hx => hx.1 rfl
    · subst h; exact fun hx => hx.2 rfl
  rw [chanLoopF_succ lp fuel _ 0 acc hne]
  simp only [hdrop, htake, List.drop_left, renderNat_foldl, Nat.zero_mul,
    Nat.zero_add]
  rw [if_neg hcond]
  by_cases hn : n ≠ 0
  · rw [if_pos hn, if_pos hn]
  · rw [if_neg hn, if_neg hn]
    have h0 : n = 0 := by omega
    rw [h0]

theorem dropWhile_delim_replicate (k : Nat) :
    (List.replicate k DELIMITER).dropWhile (fun ch => ch == DELIMITER) = [] := by
  induction k with
  | zero => rfl
  | succ k ih =>
    rw [List.replicate_succ, List.dropWhile_cons_of_pos (by simp), ih]

/-- Scanning a rendered channel list (possibly after leading delimiters)
with channel ids below NUM_TPIU_CHANNELS accepts every non-zero entry in
order, assigning consecutive ports starting after the accumulated
handlers. -/
theorem chanLoopF_render_ok (lp : Nat) :
    ∀ (l : List Nat) (k : Nat) (acc : List (Nat × Nat)) (fuel : Nat),
      (List.replicate k DELIMITER ++ renderChannelList l).length < fuel →
      (∀ c ∈ l, c < NUM_TPIU_CHANNELS) →
      chanLoopF lp fuel (List.replicate k DELIMITER ++ renderChannelList l)
        0 acc =
      .ok (acc ++ assignPorts (lp + acc.length) (l.filter fun c => c != 0)) := by
  intro l
  induction l with
  | nil =>
    intro k acc fuel hf _
    cases fuel with
    | zero => simp at hf
    | succ f =>
      have hrc : renderChannelList ([] : List Nat) = [] := rfl
      rw [hrc, List.append_nil] at hf ⊢
      cases k with
      | zero =>
        rw [show List.replicate 0 DELIMITER = ([] : List Nat) from rfl,
          chanLoopF_nil]
        simp [assignPorts]
      | succ k2 =>
        rw [chanLoopF_succ lp f _ 0 acc (by simp)]
        simp only [dropWhile_delim_replicate, List.takeWhile_nil,
          List.foldl_nil, List.length_nil, List.drop_nil]
        rw [if_neg (fun hx => hx.1 rfl), if_neg (by omega), chanLoopF_nil]
        simp [assignPorts]
  | cons n rest ih =>
    intro k acc fuel hf hlt
    cases fuel with
    | zero => simp at hf
    | succ f =>
      have hn : n < NUM_TPIU_CHANNELS := hlt n (List.mem_cons_self _ _)
      cases rest with
      | nil =>
        have hrc : renderChannelList [n] = renderNat n ++ [] := by
          simp [renderChannelList]
        rw [hrc] at hf ⊢
        rw [chanLoopF_render_step lp f k n [] acc (Or.inl rfl)]
        by_cases hn0 : n ≠ 0
        · rw [if_pos hn0, if_neg (by omega), chanLoopF_nil]
          rw [List.filter_cons_of_pos (by simpa using hn0)]
          rw [show List.filter (fun c => c != 0) [] = [] from rfl]
          simp [assignPorts]
        · have h0 : n = 0 := by omega
          subst h0
          rw [if_neg hn0, chanLoopF_nil]
          rw [List.filter_cons_of_neg (by simp)]
          simp [assignPorts]
      | cons r rs =>
        have hrc : renderChannelList (n :: r :: rs) =
            renderNat n ++ (DELIMITER :: renderChannelList (r :: rs)) := rfl
        rw [hrc] at hf ⊢
        rw [chanLoopF_render_step lp f k n
          (DELIMITER :: renderChannelList (r :: rs)) acc (Or.inr ⟨_, rfl⟩)]
        have hrnn := renderNat_ne_nil n
        have hlen : (List.replicate 1 DELIMITER ++
            renderChannelList (r :: rs)).length < f := by
          simp only [List.length_append, List.length_replicate,
            List.length_cons] at hf ⊢
          have h1 : 1 ≤ (renderNat n).length := by
            cases hrn : renderNat n with
            | nil => exact absurd hrn hrnn
            | cons a b => simp
          omega
        have hrep : List.replicate 1 DELIMITER ++ renderChannelList (r :: rs) =
            DELIMITER :: renderChannelList (r :: rs) := rfl
        have hrest : ∀ c ∈ r :: rs, c < NUM_TPIU_CHANNELS :=
          fun c hc => hlt c (List.mem_cons_of_mem _ hc)
        by_cases hn0 : n ≠ 0
        · rw [if_pos hn0, if_neg (by omega)]
          have hih := ih 1 (acc ++ [(n, lp + acc.length)]) f hlen hrest
          rw [hrep] at hih
          rw [hih]
          have hfil : List.filter (fun c => c != 0) (n :: r :: rs) =
              n :: List.filter (fun c => c != 0) (r :: rs) :=
            List.filter_cons_of_pos (by simpa using hn0)
          rw [hfil]
          rw [show assignPorts (lp + acc.length)
              (n :: List.filter (fun c => c != 0) (r :: rs)) =
            (n, lp + acc.length) :: assignPorts (lp + acc.length + 1)
              (List.filter (fun c => c != 0) (r :: rs)) from rfl]
          rw [List.append_assoc]
          have he : lp + (acc ++ [(n, lp + acc.length)]).length =
              lp + acc.length + 1 := by
            simp only [List.length_append, List.length_cons, List.length_nil]
            omega
          rw [he]
          rfl
        · have h0 : n = 0 := by omega
          subst h0
          rw [if_neg hn0]
          have hih := ih 1 acc f hlen hrest
          rw [hrep] at hih
          rw [hih]
          have hfil : List.filter (fun c => c != 0) (0 :: r :: rs) =
              List.filter (fun c => c != 0) (r :: rs) :=
            List.filter_cons_of_neg (by simp)
          rw [hfil]

/-- Scanning a rendered channel list containing an id at or above
NUM_TPIU_CHANNELS exits with code -1. -/
theorem chanLoopF_render_error (lp : Nat) :
    ∀ (l : List Nat) (k : Nat) (acc : List (Nat × Nat)) (fuel : Nat),
      (List.replicate k DELIMITER ++ renderChannelList l).length < fuel →
      (∃ c ∈ l, NUM_TPIU_CHANNELS ≤ c) →
      chanLoopF lp fuel (List.replicate k DELIMITER ++ renderChannelList l)
        0 acc = .error (-1) := by
  intro l
  induction l with
  | nil =>
    intro k acc fuel _ hex
    simp at hex
  | cons n rest ih =>
    intro k acc fuel hf hex
    cases fuel with
    | zero => simp at hf
    | succ f =>
      cases rest with
      | nil =>
        obtain ⟨c, hc, hge⟩ := hex
        have hcn : c = n := by simpa using hc
        have hgen : NUM_TPIU_CHANNELS ≤ n := hcn ▸ hge
        have hrc : renderChannelList [n] = renderNat n ++ [] := by
          simp [renderChannelList]
        rw [hrc] at hf ⊢
        rw [chanLoopF_render_step lp f k n [] acc (Or.inl rfl)]
        rw [if_pos (by simp only [NUM_TPIU_CHANNELS] at hgen; omega),
          if_pos hgen]
      | cons r rs =>
        have hrc : renderChannelList (n :: r :: rs) =
            renderNat n ++ (DELIMITER :: renderChannelList (r :: rs)) := rfl
        rw [hrc] at hf ⊢
        rw [chanLoopF_render_step lp f k n
          (DELIMITER :: renderChannelList (r :: rs)) acc (Or.inr ⟨_, rfl⟩)]
        have hrnn := renderNat_ne_nil n
        have hlen : (List.replicate 1 DELIMITER ++
            renderChannelList (r :: rs)).length < f := by
          simp only [List.length_append, List.length_replicate,
            List.length_cons] at hf ⊢
          have h1 : 1 ≤ (renderNat n).length := by
            cases hrn : renderNat n with
            | nil => exact absurd hrn hrnn
            | cons a b => simp
          omega
        have hrep : List.replicate 1 DELIMITER ++ renderChannelList (r :: rs) =
            DELIMITER :: renderChannelList (r :: rs) := rfl
        by_cases hge : NUM_TPIU_CHANNELS ≤ n
        · rw [if_pos (by simp only [NUM_TPIU_CHANNELS] at hge; omega),
            if_pos hge]
        · obtain ⟨c, hc, hcge⟩ := hex
          have hcr : c ∈ r :: rs := by
            rcases List.mem_cons.mp hc with h | h
            · subst h; exact absurd hcge hge
            · exact h
          have hex2 : ∃ c ∈ r :: rs, NUM_TPIU_CHANNELS ≤ c := ⟨c, hcr, hcge⟩
          by_cases hn0 : n ≠ 0
          · rw [if_pos hn0, if_neg hge]
            have hih := ih 1 (acc ++ [(n, lp + acc.length)]) f hlen hex2
            rw [hrep] at hih
            exact hih
          · rw [if_neg hn0]
            have hih := ih 1 acc f hlen hex2
            rw [hrep] at hih
            exact hih

theorem assignPorts_getD :
    ∀ (l : List Nat) (base i : Nat), i < l.length →
      (assignPorts base l).getD i (0, 0) = (l.getD i 0, base + i) := by
  intro l
  induction l with
  | nil => intro base i h; simp at h
  | cons c rest ih =>
    intro base i h
    cases i with
    | zero => simp [assignPorts]
    | succ j =>
      have hj : j < rest.length := by simpa using h
      rw [show assignPorts base (c :: rest) =
        (c, base) :: assignPorts (base + 1) rest from rfl]
      rw [List.getD_cons_succ, List.getD_cons_succ]
      rw [ih (base + 1) j hj]
      have he : base + 1 + j = base + (j + 1) := by omega
      rw [he]

/-- The startup scan of a rendered in-range channel list, with the zero
entries skipped. -/
theorem chanLoop_render_filter (lp : Nat) (l : List Nat)
    (h : ∀ c ∈ l, c < NUM_TPIU_CHANNELS) :
    chanLoop lp (renderChannelList l) =
      .ok (assignPorts lp (l.filter fun c => c != 0)) :=
  chanLoopF_render_ok lp l 0 [] ((renderChannelList l).length + 1) (by simp) h

/-- With no configured handlers the per-tuple body of `_stripTPIU` only
refreshes the cache: the linear search over an empty handler set always
ends with `chIndex = numHandlers = 0`, so no byte is appended anywhere. -/
theorem stripTuple_no_handlers (fills : List Nat) (ov : Bool) (c0 : Int)
    (tu : Nat × Nat) :
    stripTuple [] ⟨fills, ov, c0, 0⟩ tu =
      ⟨fills, ov, if c0 ≠ (tu.1 : Int) then (tu.1 : Int) else c0, 0⟩ := by
  unfold stripTuple
  by_cases hc : c0 ≠ (tu.1 : Int)
  · simp only [if_pos hc, List.findIdx_nil, List.length_nil]
    rw [if_neg (by simp)]
  · simp only [if_neg hc, List.length_nil]
    rw [if_neg (by simp)]

theorem stripPacket_no_handlers :
    ∀ (pkt : List (Nat × Nat)) (fills : List Nat) (ov : Bool) (c0 : Int),
      ∃ c1, List.foldl (stripTuple []) ⟨fills, ov, c0, 0⟩ pkt =
        ⟨fills, ov, c1, 0⟩ := by
  intro pkt
  induction pkt with
  | nil => intro fills ov c0; exact ⟨c0, rfl⟩
  | cons tu pkt ih =>
    intro fills ov c0
    rw [List.foldl_cons, stripTuple_no_handlers]
    exact ih fills ov _

/-- C9's drop conjunct, stated for the whole `_stripTPIU` call: with zero
configured handlers the fill levels and the overflow flag are untouched,
i.e. every decoded byte is dropped. -/
theorem stripBlock_no_handlers (st : List Nat × Bool)
    (packets : List (List (Nat × Nat))) :
    stripBlock [] st packets = st := by
  have h : ∀ (pkts : List (List (Nat × Nat))) (fills : List Nat) (ov : Bool)
      (c0 : Int),
      ∃ c1, List.foldl (fun acc pkt => List.foldl (stripTuple []) acc pkt)
        ⟨fills, ov, c0, 0⟩ pkts = ⟨fills, ov, c1, 0⟩ := by
    intro pkts
    induction pkts with
    | nil => intro fills ov c0; exact ⟨c0, rfl⟩
    | cons pkt pkts ih =>
      intro fills ov c0
      rw [List.foldl_cons]
      obtain ⟨c1, h1⟩ := stripPacket_no_handlers pkt fills ov c0
      rw [h1]
      exact ih fills ov c1
  obtain ⟨c1, h1⟩ := h packets st.1 st.2 (-1)
  simp only [stripBlock, h1]

/-! ## Claim theorems about startup -/

/-- C6: with TPIU enabled via -t and a channel list whose entries are all
in 1..127, the i-th channel in list order gets a fan-out sink listening on
port listenPort + i; and a channel id at or above NUM_TPIU_CHANNELS = 128
anywhere in the list makes startup exit with the non-zero code -1
(`genericsExit(-1)` runs inside the startup loop, before the distribution
thread or any feeder is created, hence before any data is processed). -/
theorem channelList_ports_and_range_check :
    (∀ (lp : Nat) (l : List Nat),
      (∀ c ∈ l, 1 ≤ c ∧ c < NUM_TPIU_CHANNELS) →
      chanLoop lp (renderChannelList l) = .ok (assignPorts lp l) ∧
      ∀ i, i < l.length →
        (assignPorts lp l).getD i (0, 0) = (l.getD i 0, lp + i)) ∧
    (∀ (lp : Nat) (l : List Nat),
      (∃ c ∈ l, NUM_TPIU_CHANNELS ≤ c) →
      chanLoop lp (renderChannelList l) = .error (-1)) := by
  constructor
  · intro lp l hl
    constructor
    · have h := chanLoop_render_filter lp l (fun c hc => (hl c hc).2)
      have hfil : l.filter (fun c => c != 0) = l :=
        List.filter_eq_self.mpr (fun c hc => by
          have h1 := (hl c hc).1
          simp only [bne_iff_ne, ne_eq]
          omega)
      rw [hfil] at h
      exact h
    · exact fun i hi => assignPorts_getD l lp i hi
  · intro lp l hex
    exact chanLoopF_render_error lp l 0 []
      ((renderChannelList l).length + 1) (by simp) hex

/-- Witness for C6: list [1, 2] on base port 3443, and the out-of-range
list [1, 200]. -/
theorem channelList_ports_witness :
    chanLoop 3443 (renderChannelList [1, 2]) = .ok (assignPorts 3443 [1, 2]) ∧
    chanLoop 3443 (renderChannelList [1, 200]) = .error (-1) :=
  ⟨(channelList_ports_and_range_check.1 3443 [1, 2] (by decide)).1,
   channelList_ports_and_range_check.2 3443 [1, 200] (by decide)⟩

/-- C9: a channel value 0 in the -t list creates no handler, opens no
listening port and raises no startup error — the entry is silently
skipped (`if (x)` guards handler creation), as is an empty list; zero
entries are skipped wherever they appear; and with zero configured
handlers every decoded TPIU byte is dropped by `_stripTPIU`. -/
theorem channelList_zero_silently_skipped :
    (∀ lp : Nat, chanLoop lp (renderChannelList [0]) = .ok []) ∧
    (∀ lp : Nat, chanLoop lp [] = .ok []) ∧
    (∀ (lp : Nat) (l : List Nat), (∀ c ∈ l, c < NUM_TPIU_CHANNELS) →
      chanLoop lp (renderChannelList l) =
        .ok (assignPorts lp (l.filter fun c => c != 0))) ∧
    (∀ (st : List Nat × Bool) (packets : List (List (Nat × Nat))),
      stripBlock [] st packets = st) := by
  refine ⟨?_, ?_, chanLoop_render_filter, stripBlock_no_handlers⟩
  · intro lp
    have h := chanLoop_render_filter lp [0] (by decide)
    simpa [assignPorts] using h
  · intro lp
    rfl

/-- Witness for C9: the list [3, 0, 5], whose 0 entry is skipped. -/
theorem channelList_zero_witness :
    chanLoop 3443 (renderChannelList [3, 0, 5]) =
      .ok (assignPorts 3443 (List.filter (fun c => c != 0) [3, 0, 5])) :=
  channelList_zero_silently_skipped.2.2.1 3443 [3, 0, 5] (by decide)

end Orbuculum
